import Mathlib

/-!
# Verification of the fuse segment-compaction engine and its commit protocol

Shallow embedding of the storage-layer compaction engine of the repository
(segment accumulator with greedy bucketing, segment writer/reader store, and
`try_commit` conflict resolution), together with proofs of the spec's testable
properties.  The concrete expectations are taken from
`src/query/service/tests/it/storages/fuse/operations/mutation/segments_compact_mutator.rs`;
the production code of `SegmentAccumulator` / the compact mutator is not part
of the sampled sources, so those operations are modelled from the spec
(sections 4.2 and 4.3), calibrated against the behaviour the tests assert.
-/

set_option maxHeartbeats 1600000

namespace FuseCompact

/-- Per-column statistics carried by blocks and aggregated into `Statistics`
(min / max / null count of the single sample column). -/
structure ColumnStat where
  cmin : Int
  cmax : Int
  null_count : Nat
deriving DecidableEq, Repr

/-- `BlockMeta`: immutable record of one physical data block (storage
location id, row count, uncompressed/compressed byte sizes, index size and
per-column statistics). -/
structure BlockMeta where
  location : Nat
  row_count : Nat
  block_size : Nat
  file_size : Nat
  index_size : Nat
  col_stat : ColumnStat
deriving DecidableEq, Repr

/-- Aggregate `Statistics`: element-wise sum of the numeric fields of its
constituent blocks, and the min/max/null-count merge of their column stats. -/
structure Statistics where
  row_count : Nat
  block_count : Nat
  uncompressed_byte_size : Nat
  compressed_byte_size : Nat
  index_size : Nat
  col_stats : Option ColumnStat
deriving DecidableEq, Repr

/-- The all-zero statistics record (`Statistics::default()`). -/
def Statistics.default : Statistics :=
  { row_count := 0, block_count := 0, uncompressed_byte_size := 0
    compressed_byte_size := 0, index_size := 0, col_stats := none }

/-- Merge of optional per-column statistics: min of mins, max of maxes,
sum of null counts; an absent side is the identity. -/
def mergeColStats : Option ColumnStat → Option ColumnStat → Option ColumnStat
  | none, y => y
  | x, none => x
  | some u, some v =>
      some { cmin := min u.cmin v.cmin, cmax := max u.cmax v.cmax
             null_count := u.null_count + v.null_count }

/-- Element-wise sum/merge of two `Statistics` records. -/
def merge_statistics (a b : Statistics) : Statistics :=
  { row_count := a.row_count + b.row_count
    block_count := a.block_count + b.block_count
    uncompressed_byte_size := a.uncompressed_byte_size + b.uncompressed_byte_size
    compressed_byte_size := a.compressed_byte_size + b.compressed_byte_size
    index_size := a.index_size + b.index_size
    col_stats := mergeColStats a.col_stats b.col_stats }

/-- The statistics contributed by a single block (`block_count = 1`). -/
def blockStats (b : BlockMeta) : Statistics :=
  { row_count := b.row_count, block_count := 1
    uncompressed_byte_size := b.block_size, compressed_byte_size := b.file_size
    index_size := b.index_size, col_stats := some b.col_stat }

/-- Folding a sequence of blocks into aggregate statistics
(the `StatisticsAccumulator` of the test fixture). -/
def foldStats (bs : List BlockMeta) : Statistics :=
  bs.foldl (fun st b => merge_statistics st (blockStats b)) Statistics.default

/-- `Location`: a `(path, version)` pair.  Paths are the unique ids handed
out by the `TableMetaLocationGenerator`, modelled as consecutive naturals. -/
abbrev Location := Nat × Nat

/-- The on-disk format version of `SegmentInfo` (`SegmentInfo::VERSION`). -/
def segVersion : Nat := 1

/-- `SegmentInfo`: an ordered sequence of `BlockMeta` plus a `Statistics`
summary.  Immutable once written. -/
structure SegmentInfo where
  blocks : List BlockMeta
  summary : Statistics
deriving DecidableEq, Repr

/-- The segment store behind `SegmentWriter` / `SegmentInfoReader`: an
append-only association of locations to written segments, together with the
next fresh path of the location generator. -/
structure SegmentWriterState where
  store : List (Location × SegmentInfo)
  next_path : Nat
deriving DecidableEq, Repr

/-- `SegmentWriter::write_segment`: persist a segment at a freshly generated
location and return the location together with the grown store. -/
def writeSegment (w : SegmentWriterState) (seg : SegmentInfo) :
    Location × SegmentWriterState :=
  let loc : Location := (w.next_path, segVersion)
  (loc, { store := w.store ++ [(loc, seg)], next_path := w.next_path + 1 })

/-- `SegmentInfoReader::read`: fetch the segment written at `loc`, if any. -/
def readSegment (w : SegmentWriterState) (loc : Location) : Option SegmentInfo :=
  w.store.lookup loc

/-- Read a whole list of segment locations back from the store; fails if
any single read fails. -/
def readLocs (w : SegmentWriterState) : List Location → Option (List SegmentInfo)
  | [] => some []
  | l :: ls =>
      match readSegment w l, readLocs w ls with
      | some s, some ss => some (s :: ss)
      | _, _ => none

/-- Read the locations back and concatenate their block lists end-to-end
(segment by segment, blocks in intra-segment order). -/
def readBlocks (w : SegmentWriterState) (locs : List Location) :
    Option (List BlockMeta) :=
  (readLocs w locs).map (fun segs => (segs.map SegmentInfo.blocks).flatten)

/-- `SegmentCompactionState`: the output of compaction — the aggregate
statistics, the complete ordered list of segment locations that replaces the
table's current list, and the paths of the segments actually rewritten. -/
structure SegmentCompactionState where
  statistics : Statistics
  segments_locations : List Location
  new_segment_paths : List Nat
deriving DecidableEq, Repr

/-- Modelled from the spec: the in-flight state of `SegmentAccumulator`
(production code not in the sampled sources).  `fragmented_segments` is the
pending group of consecutive original segments (§4.2 step 1);
`segments_locations` / `new_segment_paths` / `merged_statistics` accumulate
the `SegmentCompactionState` output; the writer holds every segment written
so far. -/
structure SegmentAccumulator where
  threshold : Nat
  accumulated_num_blocks : Nat
  fragmented_segments : List (SegmentInfo × Location)
  segments_locations : List Location
  new_segment_paths : List Nat
  merged_statistics : Statistics
  writer : SegmentWriterState
deriving DecidableEq, Repr

/-- `SegmentAccumulator::new(block_per_seg, segment_writer)`. -/
def SegmentAccumulator.new (block_per_seg : Nat) (w : SegmentWriterState) :
    SegmentAccumulator :=
  { threshold := block_per_seg, accumulated_num_blocks := 0
    fragmented_segments := [], segments_locations := []
    new_segment_paths := [], merged_statistics := Statistics.default
    writer := w }

/-- The concatenated block lists of the pending group. -/
def pendingBlocks (a : SegmentAccumulator) : List BlockMeta :=
  (a.fragmented_segments.map (fun p => p.1.blocks)).flatten

/-- Modelled from the spec (§4.2 steps 2–3): close the pending group.  A
group of two or more original segments is written out as one new merged
segment (blocks concatenated in order, summaries merged) and its fresh path
recorded in `new_segment_paths`; a group of exactly one segment keeps its
original location unchanged; an empty group is a no-op. -/
def compactFragments (a : SegmentAccumulator) : SegmentAccumulator :=
  match a.fragmented_segments with
  | [] => a
  | [(seg, loc)] =>
      { a with accumulated_num_blocks := 0, fragmented_segments := []
               segments_locations := a.segments_locations ++ [loc]
               merged_statistics := merge_statistics a.merged_statistics seg.summary }
  | frags =>
      let blocks := (frags.map (fun p => p.1.blocks)).flatten
      let stats := frags.foldl (fun st p => merge_statistics st p.1.summary)
        Statistics.default
      let wr := writeSegment a.writer { blocks := blocks, summary := stats }
      { a with accumulated_num_blocks := 0, fragmented_segments := []
               segments_locations := a.segments_locations ++ [wr.1]
               new_segment_paths := a.new_segment_paths ++ [wr.1.1]
               merged_statistics := merge_statistics a.merged_statistics stats
               writer := wr.2 }

/-- Modelled from the spec: `SegmentAccumulator::add` (§4.2 step 2 with the
2N write-amplification bound of §4.2's rationale, matching the test comments
"segment of size [0, 2N] is allowed" / "segment of size (2N..) is NOT
allowed").  An empty segment contributes nothing (§4.2 edge case).  With
`s` the pending block count after appending this segment: if `s < N` keep
accumulating; if `N ≤ s ≤ 2N` append the segment to the group and close it;
if `s > 2N` close the pending group without this segment and keep this
segment untouched at its original location. -/
def SegmentAccumulator.add (a : SegmentAccumulator) (seg : SegmentInfo)
    (loc : Location) : SegmentAccumulator :=
  let n := seg.blocks.length
  if n = 0 then a
  else
    let s := a.accumulated_num_blocks + n
    if s < a.threshold then
      { a with accumulated_num_blocks := s
               fragmented_segments := a.fragmented_segments ++ [(seg, loc)] }
    else if s ≤ 2 * a.threshold then
      compactFragments
        { a with accumulated_num_blocks := s
                 fragmented_segments := a.fragmented_segments ++ [(seg, loc)] }
    else
      let a' := compactFragments a
      { a' with segments_locations := a'.segments_locations ++ [loc]
                merged_statistics := merge_statistics a'.merged_statistics seg.summary }

/-- `SegmentAccumulator::finalize`: close the remaining pending group and
return the compaction state (and the final store, which in the real code
lives behind the data accessor). -/
def SegmentAccumulator.finalize (a : SegmentAccumulator) :
    SegmentCompactionState × SegmentWriterState :=
  let a' := compactFragments a
  ({ statistics := a'.merged_statistics
     segments_locations := a'.segments_locations
     new_segment_paths := a'.new_segment_paths }, a'.writer)

/-- Feed a list of (segment, location) pairs to the accumulator in order. -/
def addAll (a : SegmentAccumulator) (inputs : List (SegmentInfo × Location)) :
    SegmentAccumulator :=
  inputs.foldl (fun acc p => acc.add p.1 p.2) a

/-- The test fixture's `gen_segments`, unrolled: the i-th block list becomes
a segment whose summary is the fold of its block statistics, located at path
`start + i`. -/
def genInputs : Nat → List (List BlockMeta) → List (SegmentInfo × Location)
  | _, [] => []
  | i, bs :: rest =>
      ({ blocks := bs, summary := foldStats bs }, (i, segVersion)) :: genInputs (i + 1) rest

/-- The store after the fixture has written all original segments. -/
def genWriter (blockss : List (List BlockMeta)) : SegmentWriterState :=
  { store := (genInputs 0 blockss).map (fun p => (p.2, p.1))
    next_path := blockss.length }

/-- End-to-end run of one compaction case: write the original segments, feed
them to a fresh accumulator with threshold `N`, finalize. -/
def runCompaction (N : Nat) (blockss : List (List BlockMeta)) :
    SegmentCompactionState × SegmentWriterState :=
  (addAll (SegmentAccumulator.new N (genWriter blockss)) (genInputs 0 blockss)).finalize

/-- Sample blocks for the i-th generated segment of a test case: `n` blocks
of one row each, with distinct block locations (`gen_sample_blocks_ex(n,1,1)`). -/
def mkBlocks (i n : Nat) : List BlockMeta :=
  (List.range n).map (fun j =>
    { location := i * 1000 + j, row_count := 1, block_size := 4, file_size := 8
      index_size := 2, col_stat := { cmin := 1, cmax := 1, null_count := 0 } })

/-- A whole test case from its segment sizes, as in `test_segment_accumulator`. -/
def caseBlocks (sizes : List Nat) : List (List BlockMeta) :=
  sizes.enum.map (fun p => mkBlocks p.1 p.2)

/-- Fold the summaries of the pending group into one statistics record. -/
def sumFragStats (frags : List (SegmentInfo × Location)) : Statistics :=
  frags.foldl (fun st p => merge_statistics st p.1.summary) Statistics.default

/-- The induction invariant tying an in-flight accumulator to the prefix of
the input already consumed: `k` is the number of original segments, `P` the
concatenation of the blocks of the consumed segments, `PP` their paths.  It
records store well-formedness, that the pending group and the emitted
locations resolve in the store, the losslessness and statistics equations,
and the ordering facts behind the output-location invariants. -/
structure Inv (k : Nat) (P : List BlockMeta) (PP : List Nat)
    (a : SegmentAccumulator) : Prop where
  writer_wf : ∀ p ∈ a.writer.store, p.1.1 < a.writer.next_path
  next_ge : k ≤ a.writer.next_path
  frag_res : ∀ p ∈ a.fragmented_segments, readSegment a.writer p.2 = some p.1
  frag_wf : ∀ p ∈ a.fragmented_segments, p.1.summary = foldStats p.1.blocks
  frag_lt : ∀ p ∈ a.fragmented_segments, p.2.1 < k
  locs_lt : ∀ l ∈ a.segments_locations, l.1 < a.writer.next_path
  new_ge : ∀ q ∈ a.new_segment_paths, k ≤ q
  emitted : ∃ segs, readLocs a.writer a.segments_locations = some segs ∧
      (segs.map SegmentInfo.blocks).flatten ++ pendingBlocks a = P
  stats : merge_statistics a.merged_statistics (sumFragStats a.fragmented_segments)
      = foldStats P
  new_sub : a.new_segment_paths.Sublist (a.segments_locations.map Prod.fst)
  ordered : (((a.segments_locations.map Prod.fst).filter
        (fun q => decide (q ∉ a.new_segment_paths)))
      ++ a.fragmented_segments.map (fun p => p.2.1)).Sublist PP

/-- Block counts of the newly written segments, read back from the store at
`SegmentInfo::VERSION` (as `test_segment_accumulator` does). -/
def newSegmentSizes (w : SegmentWriterState) (st : SegmentCompactionState) :
    Option (List Nat) :=
  (st.new_segment_paths.mapM (fun p => readSegment w (p, segVersion))).map
    (List.map (fun s => s.blocks.length))

/-- Error taxonomy of the commit protocol (spec §7). -/
inductive ErrorCode where
  | storageConflict
  | storageIO
  | internalFault
deriving DecidableEq, Repr

/-- A table snapshot: an ordered sequence of segment locations plus
table-level statistics. -/
structure Snapshot where
  segments : List Location
  summary : Statistics
deriving DecidableEq, Repr

/-- Fold the summaries of a list of segments into one statistics record. -/
def sumSegmentStats (segs : List SegmentInfo) : Statistics :=
  segs.foldl (fun st s => merge_statistics st s.summary) Statistics.default

/-- Modelled from the spec: `SegmentCompactMutator::try_commit` (§4.3;
production code not in the sampled sources).  `base` is the snapshot `S0`
the compaction was planned against, `live` the table's current snapshot.
No change: publish the compaction state directly.  Resolvable conflict
(`S0`'s segments are a strict prefix of the live ones, i.e. concurrent
writers only appended): splice the appended segments onto the tail of the
compacted locations and merge their statistics in.  Otherwise the commit
fails with a storage-conflict error. -/
def tryCommit (w : SegmentWriterState) (base : Snapshot)
    (st : SegmentCompactionState) (live : Snapshot) : Except ErrorCode Snapshot :=
  if live = base then
    Except.ok { segments := st.segments_locations, summary := st.statistics }
  else if base.segments <+: live.segments then
    let appended := live.segments.drop base.segments.length
    match readLocs w appended with
    | some segs =>
        Except.ok { segments := st.segments_locations ++ appended
                    summary := merge_statistics st.statistics (sumSegmentStats segs) }
    | none => Except.error ErrorCode.storageIO
  else
    Except.error ErrorCode.storageConflict

/-- One commit attempt against the live snapshot: on success the new
snapshot is published, on failure the live snapshot is left unchanged. -/
def applyCommit (w : SegmentWriterState) (base : Snapshot)
    (st : SegmentCompactionState) (live : Snapshot) : Snapshot × Option ErrorCode :=
  match tryCommit w base st live with
  | Except.ok s => (s, none)
  | Except.error e => (live, some e)

/-- The nine 1-block-append compaction scenario of
`test_compact_segment_normal_case` (`block_per_segment = 10`). -/
def nineAppends : List (List BlockMeta) :=
  caseBlocks [1, 1, 1, 1, 1, 1, 1, 1, 1]

/-- The snapshot the nine-append compaction was planned against. -/
def nineBase : Snapshot :=
  { segments := (genInputs 0 nineAppends).map Prod.snd
    summary := foldStats nineAppends.flatten }

/-- Concrete resolvable-commit scenario used to discharge the hypotheses of
`try_commit_resolvable`: one compacted location, one concurrently appended
segment present in the store. -/
def resolvableStore : SegmentWriterState :=
  { store := [(((7, segVersion) : Location),
      { blocks := mkBlocks 7 2, summary := foldStats (mkBlocks 7 2) })]
    next_path := 8 }

theorem mergeColStats_none_right (x : Option ColumnStat) :
    mergeColStats x none = x := by
  cases x <;> rfl

theorem mergeColStats_assoc (x y z : Option ColumnStat) :
    mergeColStats (mergeColStats x y) z = mergeColStats x (mergeColStats y z) := by
  cases x <;> cases y <;> cases z <;>
    simp [mergeColStats, min_assoc, max_assoc, Nat.add_assoc]

theorem merge_statistics_default_left (s : Statistics) :
    merge_statistics Statistics.default s = s := by
  cases s
  simp [merge_statistics, Statistics.default, mergeColStats]

theorem merge_statistics_default_right (s : Statistics) :
    merge_statistics s Statistics.default = s := by
  cases s
  simp [merge_statistics, Statistics.default, mergeColStats_none_right]

theorem merge_statistics_assoc (a b c : Statistics) :
    merge_statistics (merge_statistics a b) c
      = merge_statistics a (merge_statistics b c) := by
  simp [merge_statistics, mergeColStats_assoc, Nat.add_assoc]

theorem foldl_merge_statistics_shift (bs : List BlockMeta) (s : Statistics) :
    bs.foldl (fun st b => merge_statistics st (blockStats b)) s
      = merge_statistics s (foldStats bs) := by
  induction bs generalizing s with
  | nil => simp [foldStats, merge_statistics_default_right]
  | cons b rest ih =>
      simp only [List.foldl_cons, foldStats]
      rw [ih, ih (merge_statistics Statistics.default (blockStats b))]
      rw [merge_statistics_default_left, merge_statistics_assoc]

theorem foldStats_append (xs ys : List BlockMeta) :
    foldStats (xs ++ ys) = merge_statistics (foldStats xs) (foldStats ys) := by
  unfold foldStats
  rw [List.foldl_append]
  exact foldl_merge_statistics_shift ys _

theorem foldStats_block_count (bs : List BlockMeta) :
    (foldStats bs).block_count = bs.length := by
  induction bs with
  | nil => rfl
  | cons b rest ih =>
      have h := foldStats_append [b] rest
      simp only [List.singleton_append] at h
      rw [h]
      have h1 : (foldStats [b]).block_count = 1 := rfl
      simp only [merge_statistics, h1, ih, List.length_cons]
      omega

theorem foldl_sumFragStats_shift (frags : List (SegmentInfo × Location)) (s : Statistics) :
    frags.foldl (fun st p => merge_statistics st p.1.summary) s
      = merge_statistics s (sumFragStats frags) := by
  induction frags generalizing s with
  | nil => simp [sumFragStats, merge_statistics_default_right]
  | cons p rest ih =>
      simp only [List.foldl_cons, sumFragStats]
      rw [ih, ih (merge_statistics Statistics.default p.1.summary)]
      rw [merge_statistics_default_left, merge_statistics_assoc]

theorem sumFragStats_snoc (frags : List (SegmentInfo × Location))
    (p : SegmentInfo × Location) :
    sumFragStats (frags ++ [p])
      = merge_statistics (sumFragStats frags) p.1.summary := by
  unfold sumFragStats
  rw [List.foldl_append]
  rfl

/-- When every pending segment's summary is the fold of its blocks, the fold
of the summaries is the fold over the concatenated blocks. -/
theorem sumFragStats_eq_foldStats (frags : List (SegmentInfo × Location))
    (hwf : ∀ p ∈ frags, p.1.summary = foldStats p.1.blocks) :
    sumFragStats frags = foldStats (frags.map (fun p => p.1.blocks)).flatten := by
  induction frags with
  | nil => rfl
  | cons p rest ih =>
      have hp := hwf p (List.mem_cons_self p rest)
      have hr : ∀ q ∈ rest, q.1.summary = foldStats q.1.blocks :=
        fun q hq => hwf q (List.mem_cons_of_mem p hq)
      simp only [sumFragStats, List.foldl_cons, List.map_cons, List.flatten_cons]
      rw [foldl_sumFragStats_shift, merge_statistics_default_left, hp]
      rw [ih hr, foldStats_append]

theorem readSegment_writeSegment_of_some (w : SegmentWriterState)
    (seg s : SegmentInfo) (loc : Location) (h : readSegment w loc = some s) :
    readSegment (writeSegment w seg).2 loc = some s := by
  unfold readSegment writeSegment at *
  rw [List.lookup_append, h]
  rfl

theorem lookup_eq_none_of_lt (st : List (Location × SegmentInfo)) (n v : Nat)
    (h : ∀ p ∈ st, p.1.1 < n) : List.lookup ((n, v) : Location) st = none := by
  induction st with
  | nil => rfl
  | cons p rest ih =>
      obtain ⟨⟨pp, pv⟩, ps⟩ := p
      rw [List.lookup_cons]
      have hlt : pp < n := h ⟨(pp, pv), ps⟩ (List.mem_cons_self _ _)
      have hbeq : (((n, v) : Location) == (pp, pv)) = false := by
        simp
        omega
      rw [hbeq]
      exact ih (fun q hq => h q (List.mem_cons_of_mem _ hq))

theorem readSegment_writeSegment_self (w : SegmentWriterState) (seg : SegmentInfo)
    (hwf : ∀ p ∈ w.store, p.1.1 < w.next_path) :
    readSegment (writeSegment w seg).2 (writeSegment w seg).1 = some seg := by
  show List.lookup ((w.next_path, segVersion) : Location)
    (w.store ++ [((w.next_path, segVersion), seg)]) = some seg
  rw [List.lookup_append, lookup_eq_none_of_lt w.store w.next_path segVersion hwf]
  simp [List.lookup_cons]

theorem writeSegment_wf (w : SegmentWriterState) (seg : SegmentInfo)
    (hwf : ∀ p ∈ w.store, p.1.1 < w.next_path) :
    ∀ p ∈ (writeSegment w seg).2.store, p.1.1 < (writeSegment w seg).2.next_path := by
  intro p hp
  unfold writeSegment at hp ⊢
  simp only [List.mem_append, List.mem_singleton] at hp
  rcases hp with hp | hp
  · exact Nat.lt_succ_of_lt (hwf p hp)
  · rw [hp]
    exact Nat.lt_succ_self _

theorem readLocs_nil (w : SegmentWriterState) : readLocs w [] = some [] := rfl

theorem readLocs_snoc (w : SegmentWriterState) (locs : List Location)
    (loc : Location) (segs : List SegmentInfo) (s : SegmentInfo)
    (h1 : readLocs w locs = some segs) (h2 : readSegment w loc = some s) :
    readLocs w (locs ++ [loc]) = some (segs ++ [s]) := by
  induction locs generalizing segs with
  | nil =>
      simp only [readLocs] at h1
      cases h1
      simp [readLocs, h2]
  | cons l ls ih =>
      cases hl : readSegment w l with
      | none => simp [readLocs, hl] at h1
      | some s0 =>
          cases hr : readLocs w ls with
          | none => simp [readLocs, hl, hr] at h1
          | some rest =>
              simp only [readLocs, hl, hr] at h1
              cases h1
              simp [readLocs, hl, ih rest hr]

theorem readLocs_writeSegment_of_some (w : SegmentWriterState) (seg : SegmentInfo)
    (locs : List Location) (segs : List SegmentInfo)
    (h : readLocs w locs = some segs) :
    readLocs (writeSegment w seg).2 locs = some segs := by
  induction locs generalizing segs with
  | nil =>
      simp only [readLocs] at h ⊢
      exact h
  | cons l ls ih =>
      cases hl : readSegment w l with
      | none => simp [readLocs, hl] at h
      | some s =>
          cases hr : readLocs w ls with
          | none => simp [readLocs, hl, hr] at h
          | some rest =>
              simp only [readLocs, hl, hr] at h
              have hl' := readSegment_writeSegment_of_some w seg s l hl
              have hr' := ih rest hr
              simp only [readLocs, hl', hr']
              exact h

theorem compactFragments_frags (a : SegmentAccumulator) :
    (compactFragments a).fragmented_segments = [] := by
  obtain ⟨N, acc, frags, locs, news, ms, w⟩ := a
  match frags with
  | [] => rfl
  | [p] => rfl
  | p :: q :: rest => rfl

theorem compactFragments_threshold (a : SegmentAccumulator) :
    (compactFragments a).threshold = a.threshold := by
  obtain ⟨N, acc, frags, locs, news, ms, w⟩ := a
  match frags with
  | [] => rfl
  | [p] => rfl
  | p :: q :: rest => rfl

theorem compactFragments_locs_mono (a : SegmentAccumulator) (l : Location)
    (h : l ∈ a.segments_locations) : l ∈ (compactFragments a).segments_locations := by
  obtain ⟨N, acc, frags, locs, news, ms, w⟩ := a
  match frags with
  | [] => exact h
  | [p] => exact List.mem_append_left _ h
  | p :: q :: rest => exact List.mem_append_left _ h

theorem compactFragments_reads_preserved (a : SegmentAccumulator) (l : Location)
    (s : SegmentInfo) (h : readSegment a.writer l = some s) :
    readSegment (compactFragments a).writer l = some s := by
  obtain ⟨N, acc, frags, locs, news, ms, w⟩ := a
  match frags with
  | [] => exact h
  | [p] => exact h
  | p :: q :: rest => exact readSegment_writeSegment_of_some _ _ _ _ h

theorem add_threshold (a : SegmentAccumulator) (seg : SegmentInfo) (loc : Location) :
    (a.add seg loc).threshold = a.threshold := by
  unfold SegmentAccumulator.add
  by_cases h0 : seg.blocks.length = 0
  · simp [h0]
  · simp only [h0, if_false]
    by_cases h1 : a.accumulated_num_blocks + seg.blocks.length < a.threshold
    · simp [h1]
    · simp only [h1, if_false]
      by_cases h2 : a.accumulated_num_blocks + seg.blocks.length ≤ 2 * a.threshold
      · simp only [h2, if_true]
        rw [compactFragments_threshold]
      · simp only [h2, if_false]
        rw [compactFragments_threshold]

theorem add_locs_mono (a : SegmentAccumulator) (seg : SegmentInfo) (loc : Location)
    (l : Location) (h : l ∈ a.segments_locations) :
    l ∈ (a.add seg loc).segments_locations := by
  unfold SegmentAccumulator.add
  by_cases h0 : seg.blocks.length = 0
  · simp only [h0, if_true]
    exact h
  · simp only [h0, if_false]
    by_cases h1 : a.accumulated_num_blocks + seg.blocks.length < a.threshold
    · simp only [h1, if_true]
      exact h
    · simp only [h1, if_false]
      by_cases h2 : a.accumulated_num_blocks + seg.blocks.length ≤ 2 * a.threshold
      · simp only [h2, if_true]
        exact compactFragments_locs_mono _ _ h
      · simp only [h2, if_false]
        exact List.mem_append_left _ (compactFragments_locs_mono _ _ h)

theorem add_reads_preserved (a : SegmentAccumulator) (seg : SegmentInfo)
    (loc l : Location) (s : SegmentInfo) (h : readSegment a.writer l = some s) :
    readSegment (a.add seg loc).writer l = some s := by
  unfold SegmentAccumulator.add
  by_cases h0 : seg.blocks.length = 0
  · simp only [h0, if_true]
    exact h
  · simp only [h0, if_false]
    by_cases h1 : a.accumulated_num_blocks + seg.blocks.length < a.threshold
    · simp only [h1, if_true]
      exact h
    · simp only [h1, if_false]
      by_cases h2 : a.accumulated_num_blocks + seg.blocks.length ≤ 2 * a.threshold
      · simp only [h2, if_true]
        exact compactFragments_reads_preserved _ _ _ h
      · simp only [h2, if_false]
        exact compactFragments_reads_preserved _ _ _ h

theorem add_oversized (a : SegmentAccumulator) (seg : SegmentInfo) (loc : Location)
    (h : 2 * a.threshold < seg.blocks.length) :
    loc ∈ (a.add seg loc).segments_locations := by
  unfold SegmentAccumulator.add
  have h0 : ¬ seg.blocks.length = 0 := by omega
  have h1 : ¬ a.accumulated_num_blocks + seg.blocks.length < a.threshold := by omega
  have h2 : ¬ a.accumulated_num_blocks + seg.blocks.length ≤ 2 * a.threshold := by omega
  simp only [h0, if_false, h1, h2]
  exact List.mem_append_right _ (List.mem_singleton_self _)

theorem addAll_locs_mono (inputs : List (SegmentInfo × Location))
    (a : SegmentAccumulator) (l : Location) (h : l ∈ a.segments_locations) :
    l ∈ (addAll a inputs).segments_locations := by
  induction inputs generalizing a with
  | nil => exact h
  | cons p rest ih => exact ih (a.add p.1 p.2) (add_locs_mono a p.1 p.2 l h)

theorem addAll_threshold (inputs : List (SegmentInfo × Location))
    (a : SegmentAccumulator) : (addAll a inputs).threshold = a.threshold := by
  induction inputs generalizing a with
  | nil => rfl
  | cons p rest ih => rw [addAll, List.foldl_cons, ← addAll, ih, add_threshold]

theorem addAll_reads_preserved (inputs : List (SegmentInfo × Location))
    (a : SegmentAccumulator) (l : Location) (s : SegmentInfo)
    (h : readSegment a.writer l = some s) :
    readSegment (addAll a inputs).writer l = some s := by
  induction inputs generalizing a with
  | nil => exact h
  | cons p rest ih => exact ih (a.add p.1 p.2) (add_reads_preserved a p.1 p.2 l s h)

theorem addAll_oversized (inputs : List (SegmentInfo × Location))
    (a : SegmentAccumulator) (p : SegmentInfo × Location) (hp : p ∈ inputs)
    (h : 2 * a.threshold < p.1.blocks.length) :
    p.2 ∈ (addAll a inputs).segments_locations := by
  induction inputs generalizing a with
  | nil => cases hp
  | cons q rest ih =>
      rcases List.mem_cons.mp hp with rfl | hmem
      · exact addAll_locs_mono rest _ _ (add_oversized a p.1 p.2 h)
      · refine ih (a.add q.1 q.2) hmem ?_
        rw [add_threshold]
        exact h

/-- Paths handed out by `genInputs start` are consecutive from `start`. -/
theorem genInputs_paths (blockss : List (List BlockMeta)) (start : Nat) :
    ∀ p ∈ genInputs start blockss,
      start ≤ p.2.1 ∧ p.2.1 < start + blockss.length ∧ p.2.2 = segVersion := by
  induction blockss generalizing start with
  | nil => intro p hp; cases hp
  | cons bs rest ih =>
      intro p hp
      rcases List.mem_cons.mp hp with rfl | hmem
      · refine ⟨Nat.le_refl _, ?_, by simp⟩
        simp only [List.length_cons]
        omega
      · have := ih (start + 1) p hmem
        simp only [List.length_cons]
        omega

theorem genInputs_wf (blockss : List (List BlockMeta)) (start : Nat) :
    ∀ p ∈ genInputs start blockss, p.1.summary = foldStats p.1.blocks := by
  induction blockss generalizing start with
  | nil => intro p hp; cases hp
  | cons bs rest ih =>
      intro p hp
      rcases List.mem_cons.mp hp with rfl | hmem
      · rfl
      · exact ih (start + 1) p hmem

theorem genInputs_blocks (blockss : List (List BlockMeta)) (start : Nat) :
    (genInputs start blockss).map (fun p => p.1.blocks) = blockss := by
  induction blockss generalizing start with
  | nil => rfl
  | cons bs rest ih => simp [genInputs, ih]

theorem genInputs_lookup (blockss : List (List BlockMeta)) (start : Nat) :
    ∀ p ∈ genInputs start blockss,
      List.lookup p.2 ((genInputs start blockss).map (fun q => (q.2, q.1)))
        = some p.1 := by
  induction blockss generalizing start with
  | nil => intro p hp; cases hp
  | cons bs rest ih =>
      intro p hp
      rcases List.mem_cons.mp hp with rfl | hmem
      · simp [genInputs, List.lookup_cons]
      · have hpath := (genInputs_paths rest (start + 1) p hmem).1
        simp only [genInputs, List.map_cons, List.lookup_cons]
        have hbeq : (p.2 == ((start, segVersion) : Location)) = false := by
          rw [beq_eq_false_iff_ne]
          intro hc
          have h2 : p.2.1 = start := congrArg Prod.fst hc
          omega
        rw [hbeq]
        exact ih (start + 1) p hmem

theorem compactFragments_nil_eq (a : SegmentAccumulator)
    (h : a.fragmented_segments = []) : compactFragments a = a := by
  unfold compactFragments
  rw [h]

theorem compactFragments_single_eq (a : SegmentAccumulator)
    (seg : SegmentInfo) (loc : Location)
    (h : a.fragmented_segments = [(seg, loc)]) :
    compactFragments a =
      { a with accumulated_num_blocks := 0, fragmented_segments := []
               segments_locations := a.segments_locations ++ [loc]
               merged_statistics :=
                 merge_statistics a.merged_statistics seg.summary } := by
  unfold compactFragments
  rw [h]

theorem compactFragments_multi_eq (a : SegmentAccumulator)
    (p q : SegmentInfo × Location) (rest : List (SegmentInfo × Location))
    (h : a.fragmented_segments = p :: q :: rest) :
    compactFragments a =
      { a with accumulated_num_blocks := 0, fragmented_segments := []
               segments_locations :=
                 a.segments_locations ++ [(a.writer.next_path, segVersion)]
               new_segment_paths := a.new_segment_paths ++ [a.writer.next_path]
               merged_statistics := merge_statistics a.merged_statistics
                 (sumFragStats (p :: q :: rest))
               writer := (writeSegment a.writer
                 { blocks := ((p :: q :: rest).map (fun r => r.1.blocks)).flatten
                   summary := sumFragStats (p :: q :: rest) }).2 } := by
  obtain ⟨ps, pl⟩ := p
  obtain ⟨qs, ql⟩ := q
  unfold compactFragments
  rw [h]
  rfl

theorem add_empty_eq (a : SegmentAccumulator) (seg : SegmentInfo) (loc : Location)
    (h0 : seg.blocks.length = 0) : a.add seg loc = a := by
  simp [SegmentAccumulator.add, h0]

theorem add_small_eq (a : SegmentAccumulator) (seg : SegmentInfo) (loc : Location)
    (h0 : ¬ seg.blocks.length = 0)
    (h1 : a.accumulated_num_blocks + seg.blocks.length < a.threshold) :
    a.add seg loc =
      { a with accumulated_num_blocks := a.accumulated_num_blocks + seg.blocks.length
               fragmented_segments := a.fragmented_segments ++ [(seg, loc)] } := by
  simp only [SegmentAccumulator.add]
  rw [if_neg h0, if_pos h1]

theorem add_close_eq (a : SegmentAccumulator) (seg : SegmentInfo) (loc : Location)
    (h0 : ¬ seg.blocks.length = 0)
    (h1 : ¬ a.accumulated_num_blocks + seg.blocks.length < a.threshold)
    (h2 : a.accumulated_num_blocks + seg.blocks.length ≤ 2 * a.threshold) :
    a.add seg loc = compactFragments
      { a with accumulated_num_blocks := a.accumulated_num_blocks + seg.blocks.length
               fragmented_segments := a.fragmented_segments ++ [(seg, loc)] } := by
  simp only [SegmentAccumulator.add]
  rw [if_neg h0, if_neg h1, if_pos h2]

theorem add_bypass_eq (a : SegmentAccumulator) (seg : SegmentInfo) (loc : Location)
    (h0 : ¬ seg.blocks.length = 0)
    (h1 : ¬ a.accumulated_num_blocks + seg.blocks.length < a.threshold)
    (h2 : ¬ a.accumulated_num_blocks + seg.blocks.length ≤ 2 * a.threshold) :
    a.add seg loc =
      { compactFragments a with
          segments_locations := (compactFragments a).segments_locations ++ [loc]
          merged_statistics := merge_statistics
            (compactFragments a).merged_statistics seg.summary } := by
  simp only [SegmentAccumulator.add]
  rw [if_neg h0, if_neg h1, if_neg h2]

theorem Inv_weaken_PP (k : Nat) (P : List BlockMeta) (PP L : List Nat)
    (a : SegmentAccumulator) (hv : Inv k P PP a) : Inv k P (PP ++ L) a :=
  { hv with
    ordered := hv.ordered.trans (List.sublist_append_left PP L) }

theorem Inv_push (k : Nat) (P : List BlockMeta) (PP : List Nat)
    (a : SegmentAccumulator) (seg : SegmentInfo) (loc : Location) (n : Nat)
    (hv : Inv k P PP a)
    (hres : readSegment a.writer loc = some seg)
    (hwfs : seg.summary = foldStats seg.blocks)
    (hlt : loc.1 < k) :
    Inv k (P ++ seg.blocks) (PP ++ [loc.1])
      { a with accumulated_num_blocks := n
               fragmented_segments := a.fragmented_segments ++ [(seg, loc)] } := by
  obtain ⟨segs, hrl, hblocks⟩ := hv.emitted
  refine ⟨hv.writer_wf, hv.next_ge, ?_, ?_, ?_, hv.locs_lt, hv.new_ge, ?_, ?_,
    hv.new_sub, ?_⟩
  · intro p hp
    rcases List.mem_append.mp hp with hp | hp
    · exact hv.frag_res p hp
    · rw [List.mem_singleton.mp hp]
      exact hres
  · intro p hp
    rcases List.mem_append.mp hp with hp | hp
    · exact hv.frag_wf p hp
    · rw [List.mem_singleton.mp hp]
      exact hwfs
  · intro p hp
    rcases List.mem_append.mp hp with hp | hp
    · exact hv.frag_lt p hp
    · rw [List.mem_singleton.mp hp]
      exact hlt
  · refine ⟨segs, hrl, ?_⟩
    have hpend : pendingBlocks
        { a with accumulated_num_blocks := n
                 fragmented_segments := a.fragmented_segments ++ [(seg, loc)] }
        = pendingBlocks a ++ seg.blocks := by
      simp [pendingBlocks]
    rw [hpend, ← List.append_assoc, hblocks]
  · dsimp only
    rw [sumFragStats_snoc, ← merge_statistics_assoc, hv.stats, hwfs,
      ← foldStats_append]
  · dsimp only
    have hmap : (a.fragmented_segments ++ [(seg, loc)]).map (fun p => p.2.1)
        = a.fragmented_segments.map (fun p => p.2.1) ++ [loc.1] := by
      simp
    rw [hmap, ← List.append_assoc]
    exact hv.ordered.append (List.Sublist.refl [loc.1])

theorem Inv_compactFragments (k : Nat) (P : List BlockMeta) (PP : List Nat)
    (a : SegmentAccumulator) (hv : Inv k P PP a) :
    Inv k P PP (compactFragments a) := by
  rcases hfr : a.fragmented_segments with _ | ⟨p, rest⟩
  · rw [compactFragments_nil_eq a hfr]
    exact hv
  rcases rest with _ | ⟨q, rest2⟩
  · -- exactly one pending segment: its original location is emitted as-is
    obtain ⟨seg, loc⟩ := p
    rw [compactFragments_single_eq a seg loc hfr]
    obtain ⟨segs, hrl, hblocks⟩ := hv.emitted
    have hmem : (seg, loc) ∈ a.fragmented_segments := by
      rw [hfr]
      exact List.mem_singleton_self _
    have hl2 : loc.1 < k := hv.frag_lt (seg, loc) hmem
    have hng : k ≤ a.writer.next_path := hv.next_ge
    have hlocnew : loc.1 ∉ a.new_segment_paths := fun hq =>
      absurd (hv.new_ge loc.1 hq) (by omega)
    refine ⟨hv.writer_wf, hv.next_ge, ?_, ?_, ?_, ?_, hv.new_ge, ?_, ?_, ?_, ?_⟩
    · intro x hx
      exact absurd hx (List.not_mem_nil x)
    · intro x hx
      exact absurd hx (List.not_mem_nil x)
    · intro x hx
      exact absurd hx (List.not_mem_nil x)
    · intro l hl
      show l.1 < a.writer.next_path
      rcases List.mem_append.mp hl with hl | hl
      · exact hv.locs_lt l hl
      · rw [List.mem_singleton.mp hl]
        omega
    · refine ⟨segs ++ [seg], readLocs_snoc _ _ _ _ _ hrl (hv.frag_res (seg, loc) hmem), ?_⟩
      have hpend0 : pendingBlocks a = seg.blocks := by
        simp [pendingBlocks, hfr]
      rw [hpend0] at hblocks
      simp only [pendingBlocks, List.map_append, List.map_cons, List.map_nil,
        List.flatten_append, List.flatten_cons, List.flatten_nil, List.append_nil]
      exact hblocks
    · show merge_statistics (merge_statistics a.merged_statistics seg.summary)
        (sumFragStats ([] : List (SegmentInfo × Location))) = foldStats P
      have hs : sumFragStats [(seg, loc)] = seg.summary := by
        simp [sumFragStats, merge_statistics_default_left]
      have hstats := hv.stats
      rw [hfr, hs] at hstats
      rw [show sumFragStats ([] : List (SegmentInfo × Location))
        = Statistics.default from rfl, merge_statistics_default_right]
      exact hstats
    · show a.new_segment_paths.Sublist ((a.segments_locations ++ [loc]).map Prod.fst)
      rw [List.map_append]
      exact hv.new_sub.trans (List.sublist_append_left _ _)
    · have hord := hv.ordered
      rw [hfr] at hord
      simp only [List.map_cons, List.map_nil] at hord
      show ((((a.segments_locations ++ [loc]).map Prod.fst).filter
          (fun q => decide (q ∉ a.new_segment_paths)))
        ++ List.map (fun p => p.2.1) ([] : List (SegmentInfo × Location))).Sublist PP
      rw [List.map_nil, List.append_nil, List.map_append, List.filter_append]
      have hsingle : List.filter (fun q => decide (q ∉ a.new_segment_paths))
          (List.map Prod.fst [loc]) = [loc.1] := by
        simp [hlocnew]
      rw [hsingle]
      exact hord
  · -- two or more pending segments: they are merged into a new segment
    rw [compactFragments_multi_eq a p q rest2 hfr]
    obtain ⟨segs, hrl, hblocks⟩ := hv.emitted
    have hwfw := hv.writer_wf
    refine ⟨writeSegment_wf _ _ hwfw, ?_, ?_, ?_, ?_, ?_, ?_, ?_, ?_, ?_, ?_⟩
    · show k ≤ a.writer.next_path + 1
      have := hv.next_ge
      omega
    · intro x hx
      cases hx
    · intro x hx
      cases hx
    · intro x hx
      cases hx
    · intro l hl
      show l.1 < a.writer.next_path + 1
      rcases List.mem_append.mp hl with hl | hl
      · have := hv.locs_lt l hl
        omega
      · rw [List.mem_singleton.mp hl]
        exact Nat.lt_succ_self _
    · intro x hx
      rcases List.mem_append.mp hx with hx | hx
      · exact hv.new_ge x hx
      · rw [List.mem_singleton.mp hx]
        exact hv.next_ge
    · refine ⟨segs ++ [⟨((p :: q :: rest2).map (fun r => r.1.blocks)).flatten,
          sumFragStats (p :: q :: rest2)⟩], ?_, ?_⟩
      · exact readLocs_snoc _ _ _ _ _
          (readLocs_writeSegment_of_some _ _ _ _ hrl)
          (readSegment_writeSegment_self a.writer _ hwfw)
      · have hpend0 : pendingBlocks a
            = ((p :: q :: rest2).map (fun r => r.1.blocks)).flatten := by
          unfold pendingBlocks
          rw [hfr]
        obtain ⟨X, hX⟩ : ∃ X, ((p :: q :: rest2).map (fun r => r.1.blocks)).flatten = X :=
          ⟨_, rfl⟩
        rw [hpend0, hX] at hblocks
        rw [hX]
        simp only [pendingBlocks, List.map_append, List.map_cons, List.map_nil,
          List.flatten_append, List.flatten_cons, List.flatten_nil, List.append_nil]
        exact hblocks
    · show merge_statistics
          (merge_statistics a.merged_statistics (sumFragStats (p :: q :: rest2)))
          (sumFragStats ([] : List (SegmentInfo × Location))) = foldStats P
      rw [show sumFragStats ([] : List (SegmentInfo × Location))
        = Statistics.default from rfl, merge_statistics_default_right, ← hfr]
      exact hv.stats
    · show (a.new_segment_paths ++ [a.writer.next_path]).Sublist
        ((a.segments_locations ++ [(a.writer.next_path, segVersion)]).map Prod.fst)
      rw [List.map_append]
      refine hv.new_sub.append ?_
      exact List.Sublist.refl _
    · show ((((a.segments_locations ++ [(a.writer.next_path, segVersion)]).map
            Prod.fst).filter
          (fun x => decide (x ∉ a.new_segment_paths ++ [a.writer.next_path])))
        ++ List.map (fun p => p.2.1) ([] : List (SegmentInfo × Location))).Sublist PP
      rw [List.map_nil, List.append_nil, List.map_append, List.filter_append]
      have hlast : List.filter
          (fun x => decide (x ∉ a.new_segment_paths ++ [a.writer.next_path]))
          (List.map Prod.fst [(a.writer.next_path, segVersion)]) = [] := by
        simp
      rw [hlast, List.append_nil]
      have hcongr : List.filter
          (fun x => decide (x ∉ a.new_segment_paths ++ [a.writer.next_path]))
          (a.segments_locations.map Prod.fst)
          = List.filter (fun x => decide (x ∉ a.new_segment_paths))
            (a.segments_locations.map Prod.fst) := by
        refine List.filter_congr ?_
        intro x hx
        rcases List.mem_map.mp hx with ⟨l, hl, rfl⟩
        have hxlt : l.1 < a.writer.next_path := hv.locs_lt l hl
        simp only [List.mem_append, List.mem_singleton, decide_eq_decide]
        constructor
        · intro hcc hc
          exact hcc (Or.inl hc)
        · intro hcc hc
          rcases hc with hc | hc
          · exact hcc hc
          · omega
      rw [hcongr]
      refine List.Sublist.trans ?_ hv.ordered
      exact List.sublist_append_left _ _

theorem Inv_emit_untouched (k : Nat) (P : List BlockMeta) (PP : List Nat)
    (b : SegmentAccumulator) (seg : SegmentInfo) (loc : Location)
    (hv : Inv k P PP b)
    (hfr : b.fragmented_segments = [])
    (hres : readSegment b.writer loc = some seg)
    (hwfs : seg.summary = foldStats seg.blocks)
    (hlt : loc.1 < k) :
    Inv k (P ++ seg.blocks) (PP ++ [loc.1])
      { b with segments_locations := b.segments_locations ++ [loc]
               merged_statistics :=
                 merge_statistics b.merged_statistics seg.summary } := by
  obtain ⟨segs, hrl, hblocks⟩ := hv.emitted
  have hng : k ≤ b.writer.next_path := hv.next_ge
  have hlocnew : loc.1 ∉ b.new_segment_paths := fun hq =>
    absurd (hv.new_ge loc.1 hq) (by omega)
  refine ⟨hv.writer_wf, hv.next_ge, ?_, ?_, ?_, ?_, hv.new_ge, ?_, ?_, ?_, ?_⟩
  · intro x hx
    have hx' : x ∈ b.fragmented_segments := hx
    rw [hfr] at hx'
    exact absurd hx' (List.not_mem_nil x)
  · intro x hx
    have hx' : x ∈ b.fragmented_segments := hx
    rw [hfr] at hx'
    exact absurd hx' (List.not_mem_nil x)
  · intro x hx
    have hx' : x ∈ b.fragmented_segments := hx
    rw [hfr] at hx'
    exact absurd hx' (List.not_mem_nil x)
  · intro l hl
    show l.1 < b.writer.next_path
    rcases List.mem_append.mp hl with hl | hl
    · exact hv.locs_lt l hl
    · rw [List.mem_singleton.mp hl]
      omega
  · refine ⟨segs ++ [seg], readLocs_snoc _ _ _ _ _ hrl hres, ?_⟩
    have hpend0 : pendingBlocks b = [] := by
      simp [pendingBlocks, hfr]
    rw [hpend0, List.append_nil] at hblocks
    simp only [pendingBlocks, hfr, List.map_append, List.map_cons, List.map_nil,
      List.flatten_append, List.flatten_cons, List.flatten_nil, List.append_nil]
    rw [hblocks]
  · show merge_statistics (merge_statistics b.merged_statistics seg.summary)
      (sumFragStats b.fragmented_segments) = foldStats (P ++ seg.blocks)
    have hstats := hv.stats
    rw [hfr, show sumFragStats ([] : List (SegmentInfo × Location))
      = Statistics.default from rfl, merge_statistics_default_right] at hstats
    rw [hfr, show sumFragStats ([] : List (SegmentInfo × Location))
      = Statistics.default from rfl, merge_statistics_default_right]
    rw [hstats, hwfs, ← foldStats_append]
  · show b.new_segment_paths.Sublist ((b.segments_locations ++ [loc]).map Prod.fst)
    rw [List.map_append]
    exact hv.new_sub.trans (List.sublist_append_left _ _)
  · have hord := hv.ordered
    rw [hfr] at hord
    simp only [List.map_nil, List.append_nil] at hord
    show (((b.segments_locations ++ [loc]).map Prod.fst).filter
        (fun q => decide (q ∉ b.new_segment_paths))
      ++ List.map (fun p => p.2.1) b.fragmented_segments).Sublist (PP ++ [loc.1])
    rw [hfr, List.map_nil, List.append_nil, List.map_append, List.filter_append]
    have hsingle : List.filter (fun q => decide (q ∉ b.new_segment_paths))
        (List.map Prod.fst [loc]) = [loc.1] := by
      simp [hlocnew]
    rw [hsingle]
    exact hord.append (List.Sublist.refl [loc.1])

theorem Inv_add (k : Nat) (P : List BlockMeta) (PP : List Nat)
    (a : SegmentAccumulator) (seg : SegmentInfo) (loc : Location)
    (hv : Inv k P PP a)
    (hres : readSegment a.writer loc = some seg)
    (hwfs : seg.summary = foldStats seg.blocks)
    (hlt : loc.1 < k) :
    Inv k (P ++ seg.blocks) (PP ++ [loc.1]) (a.add seg loc) := by
  by_cases h0 : seg.blocks.length = 0
  · rw [add_empty_eq a seg loc h0, List.length_eq_zero.mp h0, List.append_nil]
    exact Inv_weaken_PP k P PP [loc.1] a hv
  · by_cases h1 : a.accumulated_num_blocks + seg.blocks.length < a.threshold
    · rw [add_small_eq a seg loc h0 h1]
      exact Inv_push k P PP a seg loc _ hv hres hwfs hlt
    · by_cases h2 : a.accumulated_num_blocks + seg.blocks.length ≤ 2 * a.threshold
      · rw [add_close_eq a seg loc h0 h1 h2]
        exact Inv_compactFragments _ _ _ _
          (Inv_push k P PP a seg loc _ hv hres hwfs hlt)
      · rw [add_bypass_eq a seg loc h0 h1 h2]
        exact Inv_emit_untouched k P PP (compactFragments a) seg loc
          (Inv_compactFragments k P PP a hv) (compactFragments_frags a)
          (compactFragments_reads_preserved a loc seg hres) hwfs hlt

theorem Inv_addAll (inputs : List (SegmentInfo × Location)) (k : Nat)
    (P : List BlockMeta) (PP : List Nat) (a : SegmentAccumulator)
    (hv : Inv k P PP a)
    (hin : ∀ p ∈ inputs, readSegment a.writer p.2 = some p.1
      ∧ p.1.summary = foldStats p.1.blocks ∧ p.2.1 < k) :
    Inv k (P ++ (inputs.map (fun p => p.1.blocks)).flatten)
      (PP ++ inputs.map (fun p => p.2.1)) (addAll a inputs) := by
  induction inputs generalizing a P PP with
  | nil => simpa [addAll] using hv
  | cons p rest ih =>
      obtain ⟨hres, hwfs, hlt⟩ := hin p (List.mem_cons_self p rest)
      have hv1 := Inv_add k P PP a p.1 p.2 hv hres hwfs hlt
      have hin1 : ∀ q ∈ rest, readSegment (a.add p.1 p.2).writer q.2 = some q.1
          ∧ q.1.summary = foldStats q.1.blocks ∧ q.2.1 < k := by
        intro q hq
        obtain ⟨hr, hw, hl⟩ := hin q (List.mem_cons_of_mem p hq)
        exact ⟨add_reads_preserved a p.1 p.2 q.2 q.1 hr, hw, hl⟩
      have h2 := ih (P ++ p.1.blocks) (PP ++ [p.2.1]) (a.add p.1 p.2) hv1 hin1
      have e1 : (P ++ p.1.blocks) ++ (rest.map (fun p => p.1.blocks)).flatten
          = P ++ ((p :: rest).map (fun p => p.1.blocks)).flatten := by
        simp
      have e2 : (PP ++ [p.2.1]) ++ rest.map (fun p => p.2.1)
          = PP ++ (p :: rest).map (fun p => p.2.1) := by
        simp
      rw [e1, e2] at h2
      exact h2

theorem genInputs_pathlist (blockss : List (List BlockMeta)) (start : Nat) :
    (genInputs start blockss).map (fun p => p.2.1)
      = List.range' start blockss.length := by
  induction blockss generalizing start with
  | nil => rfl
  | cons bs rest ih =>
      simp only [genInputs, List.map_cons, List.length_cons]
      rw [ih (start + 1)]
      rfl

theorem Inv_init (N : Nat) (blockss : List (List BlockMeta)) :
    Inv blockss.length [] [] (SegmentAccumulator.new N (genWriter blockss)) := by
  refine ⟨?_, ?_, ?_, ?_, ?_, ?_, ?_, ⟨[], rfl, rfl⟩, ?_, ?_, ?_⟩
  · intro p hp
    have hp' : p ∈ (genInputs 0 blockss).map (fun q => (q.2, q.1)) := hp
    rcases List.mem_map.mp hp' with ⟨q, hq, rfl⟩
    have := (genInputs_paths blockss 0 q hq).2.1
    show q.2.1 < blockss.length
    omega
  · exact Nat.le_refl _
  · intro x hx
    exact absurd hx (List.not_mem_nil x)
  · intro x hx
    exact absurd hx (List.not_mem_nil x)
  · intro x hx
    exact absurd hx (List.not_mem_nil x)
  · intro l hl
    exact absurd hl (List.not_mem_nil l)
  · intro x hx
    exact absurd hx (List.not_mem_nil x)
  · rfl
  · exact List.nil_sublist _
  · simp [SegmentAccumulator.new]

/-- The master invariant holds of the finalized accumulator of every
compaction run. -/
theorem run_Inv (N : Nat) (blockss : List (List BlockMeta)) :
    Inv blockss.length blockss.flatten (List.range blockss.length)
      (compactFragments (addAll (SegmentAccumulator.new N (genWriter blockss))
        (genInputs 0 blockss))) := by
  have h0 := Inv_init N blockss
  have hin : ∀ p ∈ genInputs 0 blockss,
      readSegment (SegmentAccumulator.new N (genWriter blockss)).writer p.2 = some p.1
        ∧ p.1.summary = foldStats p.1.blocks ∧ p.2.1 < blockss.length := by
    intro p hp
    refine ⟨genInputs_lookup blockss 0 p hp, genInputs_wf blockss 0 p hp, ?_⟩
    have := (genInputs_paths blockss 0 p hp).2.1
    omega
  have h1 := Inv_addAll (genInputs 0 blockss) blockss.length [] []
    (SegmentAccumulator.new N (genWriter blockss)) h0 hin
  have e1 : ([] : List BlockMeta)
        ++ ((genInputs 0 blockss).map (fun p => p.1.blocks)).flatten
      = blockss.flatten := by
    rw [List.nil_append, genInputs_blocks]
  have e2 : ([] : List Nat) ++ (genInputs 0 blockss).map (fun p => p.2.1)
      = List.range blockss.length := by
    rw [List.nil_append, genInputs_pathlist, List.range_eq_range']
  rw [e1, e2] at h1
  exact Inv_compactFragments _ _ _ _ h1

theorem runCompaction_locs (N : Nat) (blockss : List (List BlockMeta)) :
    (runCompaction N blockss).1.segments_locations
      = (compactFragments (addAll (SegmentAccumulator.new N (genWriter blockss))
          (genInputs 0 blockss))).segments_locations := rfl

theorem runCompaction_news (N : Nat) (blockss : List (List BlockMeta)) :
    (runCompaction N blockss).1.new_segment_paths
      = (compactFragments (addAll (SegmentAccumulator.new N (genWriter blockss))
          (genInputs 0 blockss))).new_segment_paths := rfl

theorem runCompaction_stats (N : Nat) (blockss : List (List BlockMeta)) :
    (runCompaction N blockss).1.statistics
      = (compactFragments (addAll (SegmentAccumulator.new N (genWriter blockss))
          (genInputs 0 blockss))).merged_statistics := rfl

theorem runCompaction_writer (N : Nat) (blockss : List (List BlockMeta)) :
    (runCompaction N blockss).2
      = (compactFragments (addAll (SegmentAccumulator.new N (genWriter blockss))
          (genInputs 0 blockss))).writer := rfl

theorem genInputs_get_mem (blockss : List (List BlockMeta)) (start i : Nat)
    (hi : i < blockss.length) :
    ((⟨blockss.get ⟨i, hi⟩, foldStats (blockss.get ⟨i, hi⟩)⟩ : SegmentInfo),
      ((start + i, segVersion) : Location)) ∈ genInputs start blockss := by
  induction blockss generalizing start i with
  | nil => exact absurd hi (Nat.not_lt_zero i)
  | cons bs rest ih =>
      cases i with
      | zero =>
          rw [Nat.add_zero]
          exact List.mem_cons_self _ _
      | succ j =>
          have hj : j < rest.length := Nat.lt_of_succ_lt_succ hi
          have hmem := ih (start + 1) j hj
          rw [show start + (j + 1) = (start + 1) + j from by omega]
          exact List.mem_cons_of_mem _ hmem

/-- C6: when the input is exhausted a pending group of more than one segment
is written as a merged segment even below the threshold: with
`block_per_segment = 10` and sizes `[2,2,2,2]` the result is exactly one new
segment, one total segment location, and all 8 blocks. -/
theorem final_flush_below_threshold :
    (runCompaction 10 (caseBlocks [2, 2, 2, 2])).1.new_segment_paths.length = 1
      ∧ (runCompaction 10 (caseBlocks [2, 2, 2, 2])).1.segments_locations.length = 1
      ∧ (runCompaction 10 (caseBlocks [2, 2, 2, 2])).1.statistics.block_count = 8
      ∧ (readBlocks (runCompaction 10 (caseBlocks [2, 2, 2, 2])).2
          (runCompaction 10 (caseBlocks [2, 2, 2, 2])).1.segments_locations).map
            List.length = some 8 := by
  refine ⟨rfl, rfl, rfl, rfl⟩

/-- C5: the greedy grouping closes the pending group exactly when its block
count first reaches `N = 10`: sizes `[2,3,6,5]` give one new 11-block
segment plus the unrewritten fourth original; `[2,8,1,8]` give two new
segments of `[10,9]` blocks and an unchanged total block count; `[2,10,6,8]`
give two new segments of `[12,14]` blocks. -/
theorem greedy_grouping_cases :
    ((runCompaction 10 (caseBlocks [2, 3, 6, 5])).1.new_segment_paths.length = 1
      ∧ (runCompaction 10 (caseBlocks [2, 3, 6, 5])).1.segments_locations.length = 2
      ∧ newSegmentSizes (runCompaction 10 (caseBlocks [2, 3, 6, 5])).2
          (runCompaction 10 (caseBlocks [2, 3, 6, 5])).1 = some [11]
      ∧ (3, segVersion) ∈ (runCompaction 10 (caseBlocks [2, 3, 6, 5])).1.segments_locations
      ∧ (readLocs (runCompaction 10 (caseBlocks [2, 3, 6, 5])).2
          (runCompaction 10 (caseBlocks [2, 3, 6, 5])).1.segments_locations).map
            (List.map (fun s => s.blocks.length)) = some [11, 5])
    ∧ ((runCompaction 10 (caseBlocks [2, 8, 1, 8])).1.new_segment_paths.length = 2
      ∧ (runCompaction 10 (caseBlocks [2, 8, 1, 8])).1.segments_locations.length = 2
      ∧ newSegmentSizes (runCompaction 10 (caseBlocks [2, 8, 1, 8])).2
          (runCompaction 10 (caseBlocks [2, 8, 1, 8])).1 = some [10, 9]
      ∧ (runCompaction 10 (caseBlocks [2, 8, 1, 8])).1.statistics.block_count = 19)
    ∧ ((runCompaction 10 (caseBlocks [2, 10, 6, 8])).1.new_segment_paths.length = 2
      ∧ newSegmentSizes (runCompaction 10 (caseBlocks [2, 10, 6, 8])).2
          (runCompaction 10 (caseBlocks [2, 10, 6, 8])).1 = some [12, 14]) := by
  exact ⟨⟨rfl, rfl, rfl, by decide, rfl⟩, ⟨rfl, rfl, rfl, rfl⟩, ⟨rfl, rfl⟩⟩

/-- C8: a zero-block segment that is the only member of its pending group
produces no output at all: neither a new segment path nor an entry in the
finalized `segments_locations`. -/
theorem empty_segment_elided (w : SegmentWriterState) (loc : Location)
    (s : Statistics) (N : Nat) :
    ((SegmentAccumulator.new N w).add { blocks := [], summary := s }
        loc).finalize.1.new_segment_paths = []
      ∧ ((SegmentAccumulator.new N w).add { blocks := [], summary := s }
          loc).finalize.1.segments_locations = [] := by
  constructor <;> rfl

/-- C9: with no concurrent mutation (`live = base`) `try_commit` publishes
the compaction state directly; in the nine-append scenario the committed
snapshot has exactly 1 segment and 9 blocks. -/
theorem no_change_commit :
    (∀ (w : SegmentWriterState) (base : Snapshot) (st : SegmentCompactionState),
        tryCommit w base st base
          = Except.ok { segments := st.segments_locations, summary := st.statistics })
      ∧ applyCommit (runCompaction 10 nineAppends).2 nineBase
          (runCompaction 10 nineAppends).1 nineBase
        = ({ segments := (runCompaction 10 nineAppends).1.segments_locations
             summary := (runCompaction 10 nineAppends).1.statistics }, none)
      ∧ (runCompaction 10 nineAppends).1.segments_locations.length = 1
      ∧ (runCompaction 10 nineAppends).1.statistics.block_count = 9 := by
  refine ⟨fun w base st => ?_, by decide, rfl, rfl⟩
  unfold tryCommit
  rw [if_pos rfl]

/-- C3: if concurrent mutations only appended segments after plan time,
`try_commit` succeeds, splices the appended segments onto the compacted
locations, and the committed snapshot's segment count, block count and row
count are the compacted quantities plus the appended ones. -/
theorem try_commit_resolvable (w : SegmentWriterState) (base : Snapshot)
    (st : SegmentCompactionState) (appended : List Location) (ls : Statistics)
    (segs : List SegmentInfo)
    (hne : appended ≠ []) (hread : readLocs w appended = some segs) :
    tryCommit w base st { segments := base.segments ++ appended, summary := ls }
        = Except.ok { segments := st.segments_locations ++ appended
                      summary := merge_statistics st.statistics (sumSegmentStats segs) }
      ∧ (st.segments_locations ++ appended).length
          = st.segments_locations.length + appended.length
      ∧ (merge_statistics st.statistics (sumSegmentStats segs)).block_count
          = st.statistics.block_count + (sumSegmentStats segs).block_count
      ∧ (merge_statistics st.statistics (sumSegmentStats segs)).row_count
          = st.statistics.row_count + (sumSegmentStats segs).row_count := by
  refine ⟨?_, List.length_append _ _, rfl, rfl⟩
  have hlive : ({ segments := base.segments ++ appended, summary := ls } : Snapshot) ≠ base := by
    intro h
    have hseg : base.segments ++ appended = base.segments := congrArg Snapshot.segments h
    have := congrArg List.length hseg
    simp [List.length_append] at this
    exact hne this
  unfold tryCommit
  rw [if_neg hlive, if_pos (List.prefix_append base.segments appended)]
  simp only [List.drop_left]
  rw [hread]

theorem try_commit_resolvable_witness :
    (([((7, segVersion) : Location)] ≠ ([] : List Location))
        ∧ readLocs resolvableStore [(7, segVersion)]
            = some [{ blocks := mkBlocks 7 2, summary := foldStats (mkBlocks 7 2) }])
      ∧ (tryCommit resolvableStore { segments := [(0, segVersion)], summary := Statistics.default }
            { statistics := foldStats (mkBlocks 0 3)
              segments_locations := [(5, segVersion)], new_segment_paths := [5] }
            { segments := [(0, segVersion)] ++ [(7, segVersion)], summary := Statistics.default }
          = Except.ok { segments := [((5, segVersion) : Location)] ++ [(7, segVersion)]
                        summary := merge_statistics (foldStats (mkBlocks 0 3))
                          (sumSegmentStats [{ blocks := mkBlocks 7 2
                                              summary := foldStats (mkBlocks 7 2) }]) }
        ∧ ([((5, segVersion) : Location)] ++ [(7, segVersion)]).length
            = [((5, segVersion) : Location)].length + [((7, segVersion) : Location)].length
        ∧ (merge_statistics (foldStats (mkBlocks 0 3))
              (sumSegmentStats [{ blocks := mkBlocks 7 2
                                  summary := foldStats (mkBlocks 7 2) }])).block_count
            = (foldStats (mkBlocks 0 3)).block_count
              + (sumSegmentStats [{ blocks := mkBlocks 7 2
                                    summary := foldStats (mkBlocks 7 2) }]).block_count
        ∧ (merge_statistics (foldStats (mkBlocks 0 3))
              (sumSegmentStats [{ blocks := mkBlocks 7 2
                                  summary := foldStats (mkBlocks 7 2) }])).row_count
            = (foldStats (mkBlocks 0 3)).row_count
              + (sumSegmentStats [{ blocks := mkBlocks 7 2
                                    summary := foldStats (mkBlocks 7 2) }]).row_count) := by
  exact ⟨⟨by decide, rfl⟩,
    try_commit_resolvable resolvableStore
      { segments := [(0, segVersion)], summary := Statistics.default }
      { statistics := foldStats (mkBlocks 0 3)
        segments_locations := [(5, segVersion)], new_segment_paths := [5] }
      [(7, segVersion)] Statistics.default
      [{ blocks := mkBlocks 7 2, summary := foldStats (mkBlocks 7 2) }]
      (by decide) rfl⟩

/-- C4: if the live snapshot no longer extends the planned-against snapshot
(a concurrent compaction replaced the target segment range), the commit
attempt returns a storage-conflict error and leaves the live snapshot
unchanged. -/
theorem try_commit_unresolvable (w : SegmentWriterState) (base : Snapshot)
    (st : SegmentCompactionState) (live : Snapshot)
    (hconf : ¬ base.segments <+: live.segments) :
    tryCommit w base st live = Except.error ErrorCode.storageConflict
      ∧ applyCommit w base st live = (live, some ErrorCode.storageConflict) := by
  have hlive : live ≠ base := by
    intro h
    exact hconf (h ▸ List.prefix_refl live.segments)
  have hc : tryCommit w base st live = Except.error ErrorCode.storageConflict := by
    unfold tryCommit
    rw [if_neg hlive, if_neg hconf]
  exact ⟨hc, by unfold applyCommit; rw [hc]⟩

theorem try_commit_unresolvable_witness :
    (¬ (({ segments := [(0, segVersion), (1, segVersion)]
           summary := Statistics.default } : Snapshot).segments
        <+: ({ segments := [((9, segVersion) : Location)]
               summary := Statistics.default } : Snapshot).segments))
      ∧ (tryCommit { store := [], next_path := 10 }
            { segments := [(0, segVersion), (1, segVersion)], summary := Statistics.default }
            { statistics := Statistics.default
              segments_locations := [(5, segVersion)], new_segment_paths := [5] }
            { segments := [(9, segVersion)], summary := Statistics.default }
          = Except.error ErrorCode.storageConflict
        ∧ applyCommit { store := [], next_path := 10 }
            { segments := [(0, segVersion), (1, segVersion)], summary := Statistics.default }
            { statistics := Statistics.default
              segments_locations := [(5, segVersion)], new_segment_paths := [5] }
            { segments := [(9, segVersion)], summary := Statistics.default }
          = ({ segments := [(9, segVersion)], summary := Statistics.default },
              some ErrorCode.storageConflict)) := by
  exact ⟨by decide,
    try_commit_unresolvable { store := [], next_path := 10 }
      { segments := [(0, segVersion), (1, segVersion)], summary := Statistics.default }
      { statistics := Statistics.default
        segments_locations := [(5, segVersion)], new_segment_paths := [5] }
      { segments := [(9, segVersion)], summary := Statistics.default }
      (by decide)⟩

/-- C1: losslessness of compaction — for every input sequence of segments,
reading the compacted `segments_locations` end-to-end (segment by segment,
blocks in intra-segment order) yields exactly the original sequence of
`BlockMeta` records, in content and in order. -/
theorem compaction_lossless (N : Nat) (blockss : List (List BlockMeta)) :
    readBlocks (runCompaction N blockss).2
        (runCompaction N blockss).1.segments_locations
      = some blockss.flatten := by
  obtain ⟨segs, hrl, hblocks⟩ := (run_Inv N blockss).emitted
  have hpend : pendingBlocks (compactFragments
      (addAll (SegmentAccumulator.new N (genWriter blockss))
        (genInputs 0 blockss))) = [] := by
    simp [pendingBlocks, compactFragments_frags]
  rw [hpend, List.append_nil] at hblocks
  rw [runCompaction_writer, runCompaction_locs]
  unfold readBlocks
  rw [hrl]
  show some ((List.map SegmentInfo.blocks segs).flatten) = some blockss.flatten
  rw [hblocks]

/-- C2: statistics correctness — for every input, the aggregate `Statistics`
of the compaction state equals the fold (element-wise sum/merge) of the
per-block statistics of all original blocks, and in particular its
`block_count` is the total number of blocks of the input segments. -/
theorem compaction_statistics_correct (N : Nat) (blockss : List (List BlockMeta)) :
    (runCompaction N blockss).1.statistics = foldStats blockss.flatten
      ∧ (runCompaction N blockss).1.statistics.block_count
          = (blockss.map List.length).sum := by
  have hstats := (run_Inv N blockss).stats
  rw [compactFragments_frags, show sumFragStats ([] : List (SegmentInfo × Location))
    = Statistics.default from rfl, merge_statistics_default_right] at hstats
  rw [runCompaction_stats]
  refine ⟨hstats, ?_⟩
  rw [hstats, foldStats_block_count, List.length_flatten]

/-- C10: for every input, `new_segment_paths` is a subsequence of the paths
of `segments_locations` in the order the new segments were written, and the
remaining (unrewritten original) paths form a subsequence of the original
input paths in input order. -/
theorem new_paths_sublist_of_locations (N : Nat) (blockss : List (List BlockMeta)) :
    (runCompaction N blockss).1.new_segment_paths.Sublist
        ((runCompaction N blockss).1.segments_locations.map Prod.fst)
      ∧ (((runCompaction N blockss).1.segments_locations.map Prod.fst).filter
          (fun q => decide (q ∉ (runCompaction N blockss).1.new_segment_paths))).Sublist
        (List.range blockss.length) := by
  have h1 := (run_Inv N blockss).new_sub
  have h2 := (run_Inv N blockss).ordered
  rw [compactFragments_frags] at h2
  simp only [List.map_nil, List.append_nil] at h2
  rw [runCompaction_news, runCompaction_locs]
  exact ⟨h1, h2⟩

/-- C7: an original segment with more than `2N` blocks is left untouched by
every compaction run — its original location appears in the compacted
`segments_locations`, it still reads back unchanged from the store, and its
path is never among the newly written segment paths. -/
theorem oversized_segment_untouched (N : Nat) (blockss : List (List BlockMeta))
    (i : Nat) (hi : i < blockss.length)
    (hbig : 2 * N < (blockss.get ⟨i, hi⟩).length) :
    ((i, segVersion) : Location) ∈ (runCompaction N blockss).1.segments_locations
      ∧ readSegment (runCompaction N blockss).2 (i, segVersion)
          = some ⟨blockss.get ⟨i, hi⟩, foldStats (blockss.get ⟨i, hi⟩)⟩
      ∧ (i : Nat) ∉ (runCompaction N blockss).1.new_segment_paths := by
  have hmem := genInputs_get_mem blockss 0 i hi
  rw [Nat.zero_add] at hmem
  refine ⟨?_, ?_, ?_⟩
  · rw [runCompaction_locs]
    refine compactFragments_locs_mono _ _ ?_
    exact addAll_oversized (genInputs 0 blockss)
      (SegmentAccumulator.new N (genWriter blockss)) _ hmem hbig
  · rw [runCompaction_writer]
    refine compactFragments_reads_preserved _ _ _ ?_
    refine addAll_reads_preserved _ _ _ _ ?_
    exact genInputs_lookup blockss 0 _ hmem
  · intro hin
    have hge := (run_Inv N blockss).new_ge i ?_
    · omega
    · rw [runCompaction_news] at hin
      exact hin

theorem oversized_segment_untouched_witness :
    (0 < ([mkBlocks 0 3] : List (List BlockMeta)).length
        ∧ 2 * 1 < (mkBlocks 0 3).length)
      ∧ (((0, segVersion) : Location)
            ∈ (runCompaction 1 [mkBlocks 0 3]).1.segments_locations
        ∧ readSegment (runCompaction 1 [mkBlocks 0 3]).2 (0, segVersion)
            = some ⟨mkBlocks 0 3, foldStats (mkBlocks 0 3)⟩
        ∧ (0 : Nat) ∉ (runCompaction 1 [mkBlocks 0 3]).1.new_segment_paths) := by
  exact ⟨⟨by decide, by decide⟩,
    oversized_segment_untouched 1 [mkBlocks 0 3] 0 (by decide) (by decide)⟩

end FuseCompact
